import Mathlib

/-!
Verification of the MafiaDon vote/elimination state machine.

The definitions below are a shallow embedding of the Python sources:
  - `src/utils.py`   : class GameState (votes, hammer timer, eliminations)
  - `src/cogs/admin.py`   : /resetvotes and /startgame command bodies
  - `src/cogs/gameplay.py`: the check_hammer_countdown scheduler tick

Modelling conventions:
  - Player and channel identifiers are `Nat` (Discord snowflake ids).
  - Timestamps and durations are `Int` (seconds); `datetime.now()` becomes an
    explicit `now` parameter, `timedelta(hours=24)` a `duration` parameter.
  - A Python `dict[int, int]` is an association list in insertion order with
    unique keys; assignment updates an existing key in place (keeping its
    position) or appends a fresh entry at the end, exactly as CPython does.
  - A Python `set[int]` is a list with insert-if-absent, so that repeated
    insertion produces a literally identical list.
  - The scheduler tick is modelled per game, with the guild and member
    lookups of the chat platform succeeding (the claims under study concern
    the tick's internal ordering and selection logic, not lookup failures).
-/

/-- Python dict assignment `m[k] = v`: replace the entry for `k` in place if
present, otherwise append `(k, v)` at the end. -/
def dictSet : List (Nat × Nat) → Nat → Nat → List (Nat × Nat)
  | [], k, v => [(k, v)]
  | p :: rest, k, v => if p.1 = k then (k, v) :: rest else p :: dictSet rest k v

/-- Python dict lookup `m.get(k)`. -/
def dictGet : List (Nat × Nat) → Nat → Option Nat
  | [], _ => none
  | p :: rest, k => if p.1 = k then some p.2 else dictGet rest k

/-- Python `del m[k]` (on unique keys this removes the single entry for `k`). -/
def dictDel (m : List (Nat × Nat)) (k : Nat) : List (Nat × Nat) :=
  m.filter (fun p => p.1 ≠ k)

/-- Python set insertion `s.add(x)`. -/
def setInsert (s : List Nat) (x : Nat) : List Nat :=
  if x ∈ s then s else s ++ [x]

/-- GameState from `src/utils.py` lines 12-22 (equivalently `src/bot.py`
lines 315-327; the `guild_id`/`channel_id` persistence bookkeeping carries no
game logic and is omitted). `votes` maps voter id to target id. -/
structure GameState where
  votes : List (Nat × Nat)
  hammer_active : Bool
  hammer_end_time : Option Int
  game_channel : Option Nat
  last_update_time : Option Int
  eliminated_players : List Nat
  game_active : Bool
deriving Repr, DecidableEq

/-- `GameState.__init__`: the freshly constructed empty, inactive state. -/
def freshGameState : GameState :=
  { votes := [], hammer_active := false, hammer_end_time := none,
    game_channel := none, last_update_time := none,
    eliminated_players := [], game_active := false }

/-- `GameState.eliminate_player` (`src/utils.py` lines 29-34): add the member
to the eliminated set and drop every vote whose voter or target is the member. -/
def eliminate_player (st : GameState) (memberId : Nat) : GameState :=
  { st with
    eliminated_players := setInsert st.eliminated_players memberId,
    votes := st.votes.filter (fun p => p.1 ≠ memberId ∧ p.2 ≠ memberId) }

/-- `GameState.cast_vote` (`src/utils.py` lines 36-39): unconditionally store
the vote and return True. -/
def cast_vote (st : GameState) (voterId targetId : Nat) : GameState × Bool :=
  ({ st with votes := dictSet st.votes voterId targetId }, true)

/-- `GameState.remove_vote` (`src/utils.py` lines 41-46): delete the voter's
entry if present, reporting whether one was removed. -/
def remove_vote (st : GameState) (voterId : Nat) : GameState × Bool :=
  if (dictGet st.votes voterId).isSome then
    ({ st with votes := dictDel st.votes voterId }, true)
  else (st, false)

/-- The targets of `get_vote_tally` in enumeration order: iterating the vote
map in insertion order, a target enters the tally dict the first time it
appears (Python's `defaultdict` keeps insertion order of keys). -/
def tallyKeys (votes : List (Nat × Nat)) : List Nat :=
  votes.foldl (fun ks p => if p.2 ∈ ks then ks else ks ++ [p.2]) []

/-- The voters recorded against one target: the voter ids of the votes for
that target, in vote-map iteration order (the order they are appended). -/
def votersFor (votes : List (Nat × Nat)) (target : Nat) : List Nat :=
  (votes.filter (fun p => p.2 = target)).map (fun p => p.1)

/-- `GameState.get_vote_tally` (`src/utils.py` lines 48-53): group votes by
target; the resulting dict enumerates targets in order of first appearance. -/
def get_vote_tally (votes : List (Nat × Nat)) : List (Nat × List Nat) :=
  (tallyKeys votes).map (fun t => (t, votersFor votes t))

/-- `GameState.get_majority_threshold` (`src/utils.py` lines 55-58):
`(len(active_players) // 2) + 1`, where the active-player list is supplied by
the external role lookup; we take its length as the argument. -/
def get_majority_threshold (numActive : Nat) : Nat :=
  numActive / 2 + 1

/-- `GameState.check_majority` (`src/utils.py` lines 60-67): scan the tally in
its enumeration order and return the first target whose vote count reaches the
threshold, else None. -/
def check_majority (votes : List (Nat × Nat)) (numActive : Nat) : Option Nat :=
  ((get_vote_tally votes).find?
    (fun p => get_majority_threshold numActive ≤ p.2.length)).map (fun p => p.1)

/-- `GameState.start_hammer` (`src/utils.py` lines 69-74, `src/bot.py` lines
392-401): activate the timer, set the end to now plus the hammer duration
(`HAMMER_DURATION`, 24 hours in the source), record the channel and the
last-update time. -/
def start_hammer (st : GameState) (channel : Nat) (now duration : Int) : GameState :=
  { st with
    hammer_active := true, hammer_end_time := some (now + duration),
    game_channel := some channel, last_update_time := some now }

/-- `GameState.get_time_remaining` (`src/utils.py` lines 76-83): None when the
timer is inactive or has no end time; otherwise the remaining time clamped at
zero from below. -/
def get_time_remaining (st : GameState) (now : Int) : Option Int :=
  if !st.hammer_active then none
  else
    match st.hammer_end_time with
    | none => none
    | some e => if e - now < 0 then some 0 else some (e - now)

/-- `GameState.is_hammer_expired` (`src/utils.py` lines 85-88): the remaining
time exists and is ≤ 0. -/
def is_hammer_expired (st : GameState) (now : Int) : Bool :=
  match get_time_remaining st now with
  | none => false
  | some r => r ≤ 0

/-- Body of the `/resetvotes` command (`src/cogs/admin.py` lines 122-129,
`src/bot.py` lines 1041-1045): clear the vote map and deactivate the timer. -/
def resetvotes (st : GameState) : GameState :=
  { st with
    votes := [], hammer_active := false, hammer_end_time := none,
    last_update_time := none }

/-- Activation failure reported by `/startgame`. -/
inductive StartError where
  | insufficientPlayers
deriving Repr, DecidableEq

/-- Body of the `/startgame` command (`src/cogs/admin.py` lines 191-205,
`src/bot.py` lines 850-866): with fewer than 3 role-holding players, report
the error and leave the state untouched; otherwise install a fresh state with
the active flag set and the invoking channel recorded. -/
def startgame (st : GameState) (players : List Nat) (channel : Nat) :
    GameState × Option StartError :=
  if players.length < 3 then (st, some StartError.insufficientPlayers)
  else ({ freshGameState with game_active := true, game_channel := some channel },
        none)

/-- One step of Python `max` with `key=len`: replace the best element only on
a strictly larger count, so ties keep the earlier element. -/
def maxStep (best : Option (Nat × List Nat)) (p : Nat × List Nat) :
    Option (Nat × List Nat) :=
  match best with
  | none => some p
  | some b => if b.2.length < p.2.length then some p else some b

/-- Python `max(vote_tally.keys(), key=lambda k: len(vote_tally[k]))` over the
tally in its enumeration order (as an Option to cover the empty tally, which
the source excludes by the `if vote_tally:` guard). -/
def maxByVotes (l : List (Nat × List Nat)) : Option (Nat × List Nat) :=
  l.foldl maxStep none

/-- The player the scheduler hammers at expiry (`src/cogs/gameplay.py` line
246): the tally key with the most votes under Python `max`. -/
def hammeredTarget (votes : List (Nat × Nat)) : Option Nat :=
  (maxByVotes (get_vote_tally votes)).map (fun p => p.1)

/-- Events the scheduler tick emits to the channel (`game.game_channel.send`
calls in `check_hammer_countdown`). -/
inductive HEvent where
  | hammerResolved (eliminated : Option Nat)
  | hammerProgress (remaining : Int)
deriving Repr, DecidableEq

/-- The update interval of the progress announcement, `timedelta(hours=4)`
(`src/cogs/gameplay.py` line 266), in seconds. -/
def updateInterval : Int := 4 * 3600

/-- One iteration of `GameplayCog.check_hammer_countdown` for a single game
(`src/cogs/gameplay.py` lines 226-275; `src/bot.py` lines 1064-1126 is the
same logic plus persistence writes): skip inactive timers or games without a
channel; if expired, deactivate the timer, eliminate the max-vote target when
any votes exist, and announce the resolution; otherwise announce progress when
at least the update interval elapsed since the last update. Guild and member
lookups are modelled as succeeding. -/
def check_hammer_tick (st : GameState) (now : Int) : GameState × List HEvent :=
  if !st.hammer_active || st.game_channel.isNone then (st, [])
  else
    match get_time_remaining st now with
    | none => (st, [])
    | some remaining =>
      if is_hammer_expired st now then
        let st1 := { st with hammer_active := false }
        match hammeredTarget st1.votes with
        | some t => (eliminate_player st1 t, [HEvent.hammerResolved (some t)])
        | none => (st1, [HEvent.hammerResolved none])
      else
        match st.last_update_time with
        | none => (st, [])
        | some lu =>
          if updateInterval ≤ now - lu then
            ({ st with last_update_time := some now },
             [HEvent.hammerProgress remaining])
          else (st, [])

/-- Specification-side comparison order for tallies (`spec.md` §4.1): vote
count descending, ties broken by target identifier ascending. -/
def specLE (a b : Nat × List Nat) : Bool :=
  b.2.length < a.2.length || (a.2.length = b.2.length ∧ a.1 ≤ b.1)

/-- Insertion into a `specLE`-sorted list. -/
def specInsert (a : Nat × List Nat) : List (Nat × List Nat) → List (Nat × List Nat)
  | [] => [a]
  | b :: rest => if specLE a b then a :: b :: rest else b :: specInsert a rest

/-- Modelled from the spec: the deterministic enumeration order `spec.md`
fixes for the tally — "sort by target descending vote-count, tie-break by
target identifier ascending" — realised as an insertion sort of the tally. -/
def specSortedTally (votes : List (Nat × Nat)) : List (Nat × List Nat) :=
  (get_vote_tally votes).foldr specInsert []

/-- Modelled from the spec: `checkMajority` as `spec.md` §4.1 words it — the
first target under the spec's deterministic order whose count meets the
threshold. -/
def check_majority_spec (votes : List (Nat × Nat)) (numActive : Nat) : Option Nat :=
  ((specSortedTally votes).find?
    (fun p => get_majority_threshold numActive ≤ p.2.length)).map (fun p => p.1)

/-- Modelled from the spec: the expiry-resolution target of `spec.md` §4.4 —
highest count, ties broken by the spec's deterministic order, so the head of
the spec-sorted tally. -/
def hammeredTarget_spec (votes : List (Nat × Nat)) : Option Nat :=
  ((specSortedTally votes).head?).map (fun p => p.1)

/-- Vote operations for the sequence invariant of `spec.md` §8. -/
inductive VoteOp where
  | cast (voterId targetId : Nat)
  | remove (voterId : Nat)

/-- Apply one vote operation to a game state. -/
def applyOp (st : GameState) : VoteOp → GameState
  | VoteOp.cast v t => (cast_vote st v t).1
  | VoteOp.remove v => (remove_vote st v).1

/-- Apply a sequence of vote operations to the empty game state. -/
def applyOps (ops : List VoteOp) : GameState :=
  ops.foldl applyOp freshGameState

/-- The effect of one vote operation on the vote recorded for voter `u`. -/
def voteStep (u : Nat) (acc : Option Nat) : VoteOp → Option Nat
  | VoteOp.cast v t => if v = u then some t else acc
  | VoteOp.remove v => if v = u then none else acc

/-- The vote a voter should end up with after a sequence of operations: the
target of the latest cast for that voter not followed by a removal. -/
def latestVote (ops : List VoteOp) (u : Nat) : Option Nat :=
  ops.foldl (voteStep u) none

/-- The keys of an association list are pairwise distinct. -/
def keysNodup (m : List (Nat × Nat)) : Prop :=
  (m.map (fun p => p.1)).Nodup

/-- A concrete game whose hammer has expired at any positive time: two votes
on two distinct targets, one vote each, targets appearing in the vote map in
the order 20 then 10. -/
def exhSt : GameState :=
  { votes := [(1, 20), (2, 10)], hammer_active := true, hammer_end_time := some 0,
    game_channel := some 5, last_update_time := some 0,
    eliminated_players := [], game_active := true }

/-! Helper lemmas about the Python dict and set embeddings. -/

theorem dictGet_dictSet (m : List (Nat × Nat)) (k v u : Nat) :
    dictGet (dictSet m k v) u = if k = u then some v else dictGet m u := by
  induction m with
  | nil =>
    by_cases h : k = u <;> simp [dictSet, dictGet, h]
  | cons p rest ih =>
    by_cases hpk : p.1 = k
    · by_cases hku : k = u <;> simp [dictSet, dictGet, hpk, hku]
    · have h1 : dictSet (p :: rest) k v = p :: dictSet rest k v := by
        simp [dictSet, hpk]
      rw [h1]
      by_cases hpu : p.1 = u
      · have hku : ¬ k = u := fun h => hpk (hpu.trans h.symm)
        simp [dictGet, hpu, hku]
      · simp [dictGet, hpu, ih]

theorem dictGet_dictDel (m : List (Nat × Nat)) (k u : Nat) :
    dictGet (dictDel m k) u = if u = k then none else dictGet m u := by
  induction m with
  | nil => simp [dictDel, dictGet]
  | cons p rest ih =>
    by_cases hpk : p.1 = k
    · have h1 : dictDel (p :: rest) k = dictDel rest k := by
        simp [dictDel, List.filter_cons, hpk]
      rw [h1, ih]
      by_cases huk : u = k
      · simp [huk]
      · have hpu : ¬ p.1 = u := fun h => huk (h.symm.trans hpk)
        simp [huk, dictGet, hpu]
    · have h1 : dictDel (p :: rest) k = p :: dictDel rest k := by
        simp [dictDel, List.filter_cons, hpk]
      rw [h1]
      by_cases hpu : p.1 = u
      · have huk : ¬ u = k := fun h => hpk (hpu.trans h)
        simp [dictGet, hpu, huk]
      · simp [dictGet, hpu, ih]

theorem keys_dictSet (m : List (Nat × Nat)) (k v : Nat) :
    (dictSet m k v).map (fun p => p.1) =
      if k ∈ m.map (fun p => p.1) then m.map (fun p => p.1)
      else m.map (fun p => p.1) ++ [k] := by
  induction m with
  | nil => simp [dictSet]
  | cons p rest ih =>
    by_cases hpk : p.1 = k
    · simp [dictSet, hpk]
    · have : ¬ k = p.1 := fun h => hpk h.symm
      by_cases hk : k ∈ rest.map (fun p => p.1) <;>
        simp [dictSet, hpk, this, hk, ih]

theorem keysNodup_dictSet (m : List (Nat × Nat)) (k v : Nat)
    (h : keysNodup m) : keysNodup (dictSet m k v) := by
  unfold keysNodup at *
  rw [keys_dictSet]
  by_cases hk : k ∈ m.map (fun p => p.1)
  · simpa [hk]
  · simp only [hk, if_false]
    simp [List.nodup_append, h, hk]

theorem keysNodup_dictDel (m : List (Nat × Nat)) (k : Nat)
    (h : keysNodup m) : keysNodup (dictDel m k) := by
  unfold keysNodup at *
  exact ((List.filter_sublist m).map (fun p => p.1)).nodup h

theorem mem_setInsert_self (s : List Nat) (x : Nat) : x ∈ setInsert s x := by
  unfold setInsert
  by_cases h : x ∈ s <;> simp [h]

theorem setInsert_idem (s : List Nat) (x : Nat) :
    setInsert (setInsert s x) x = setInsert s x := by
  unfold setInsert
  by_cases h : x ∈ s <;> simp [h]

theorem find?_split {α : Type} (p : α → Bool) (l : List α) (a : α)
    (h : l.find? p = some a) :
    ∃ l1 l2, l = l1 ++ a :: l2 ∧ p a = true ∧ ∀ x ∈ l1, p x = false := by
  induction l with
  | nil => simp [List.find?] at h
  | cons b rest ih =>
    by_cases hb : p b
    · rw [List.find?_cons_of_pos _ hb] at h
      obtain rfl : b = a := by injection h
      exact ⟨[], rest, rfl, hb, by simp⟩
    · rw [List.find?_cons_of_neg _ (by simpa using hb)] at h
      obtain ⟨l1, l2, he, hpa, hall⟩ := ih h
      refine ⟨b :: l1, l2, by rw [he, List.cons_append], hpa, ?_⟩
      intro x hx
      rcases List.mem_cons.1 hx with rfl | hx
      · simpa using hb
      · exact hall x hx

theorem find?_isSome_of_mem {α : Type} (p : α → Bool) (l : List α) (a : α)
    (ha : a ∈ l) (hp : p a = true) : ∃ b, l.find? p = some b := by
  induction l with
  | nil => cases ha
  | cons x rest ih =>
    by_cases hx : p x
    · exact ⟨x, List.find?_cons_of_pos _ hx⟩
    · rcases List.mem_cons.1 ha with rfl | ha
      · rw [hp] at hx; exact absurd rfl hx
      · obtain ⟨b, hb⟩ := ih ha
        exact ⟨b, by rw [List.find?_cons_of_neg _ (by simpa using hx), hb]⟩

theorem mem_tallyKeys_aux (votes : List (Nat × Nat)) (acc : List Nat) (x : Nat) :
    x ∈ votes.foldl (fun ks p => if p.2 ∈ ks then ks else ks ++ [p.2]) acc ↔
      x ∈ acc ∨ ∃ v, (v, x) ∈ votes := by
  induction votes generalizing acc with
  | nil => simp
  | cons p rest ih =>
    simp only [List.foldl_cons]
    rw [ih]
    have hmem : x ∈ (if p.2 ∈ acc then acc else acc ++ [p.2]) ↔
        x ∈ acc ∨ x = p.2 := by
      by_cases hp : p.2 ∈ acc
      · simp only [hp, if_true]
        constructor
        · exact Or.inl
        · rintro (h | rfl)
          · exact h
          · exact hp
      · simp [hp]
    rw [hmem]
    constructor
    · rintro ((h | rfl) | ⟨v, hv⟩)
      · exact Or.inl h
      · exact Or.inr ⟨p.1, by simp⟩
      · exact Or.inr ⟨v, List.mem_cons_of_mem _ hv⟩
    · rintro (h | ⟨v, hv⟩)
      · exact Or.inl (Or.inl h)
      · rcases List.mem_cons.1 hv with he | hv
        · exact Or.inl (Or.inr (by rw [← he]))
        · exact Or.inr ⟨v, hv⟩

theorem mem_tallyKeys (votes : List (Nat × Nat)) (x : Nat) :
    x ∈ tallyKeys votes ↔ ∃ v, (v, x) ∈ votes := by
  unfold tallyKeys
  rw [mem_tallyKeys_aux]
  simp

theorem votersFor_eq_nil (votes : List (Nat × Nat)) (t : Nat)
    (h : t ∉ tallyKeys votes) : votersFor votes t = [] := by
  rw [mem_tallyKeys] at h
  unfold votersFor
  rw [List.map_eq_nil_iff, List.filter_eq_nil_iff]
  intro q hq
  simp only [decide_eq_true_eq]
  intro hqt
  exact h ⟨q.1, by rw [← hqt]; simpa using hq⟩

theorem mem_tally_shape (votes : List (Nat × Nat)) (e : Nat × List Nat)
    (he : e ∈ get_vote_tally votes) :
    e.2 = votersFor votes e.1 ∧ e.1 ∈ tallyKeys votes := by
  unfold get_vote_tally at he
  obtain ⟨t, ht, hte⟩ := List.mem_map.1 he
  constructor
  · rw [← hte]
  · rw [← hte]; exact ht

theorem keys_of_tally (votes : List (Nat × Nat)) :
    (get_vote_tally votes).map (fun p => p.1) = tallyKeys votes := by
  unfold get_vote_tally
  rw [List.map_map]
  have hco : ((fun p : Nat × List Nat => p.1) ∘ fun t => (t, votersFor votes t)) =
      id := rfl
  rw [hco, List.map_id]

theorem foldl_maxStep_first (l : List (Nat × List Nat)) (b : Nat × List Nat) :
    ∃ c l1 l2, l.foldl maxStep (some b) = some c ∧
      b :: l = l1 ++ c :: l2 ∧
      (∀ x ∈ l1, x.2.length < c.2.length) ∧
      (∀ x ∈ b :: l, x.2.length ≤ c.2.length) := by
  induction l generalizing b with
  | nil =>
    refine ⟨b, [], [], rfl, rfl, by simp, ?_⟩
    intro x hx
    rw [List.mem_singleton] at hx
    rw [hx]
  | cons p rest ih =>
    by_cases hlt : b.2.length < p.2.length
    · obtain ⟨c, l1, l2, hc, hsplit, hstrict, hbound⟩ := ih p
      have hple : p.2.length ≤ c.2.length := hbound p (List.mem_cons_self _ _)
      refine ⟨c, b :: l1, l2, ?_, ?_, ?_, ?_⟩
      · simpa [maxStep, hlt] using hc
      · rw [List.cons_append, ← hsplit]
      · intro x hx
        rcases List.mem_cons.1 hx with rfl | hx
        · exact lt_of_lt_of_le hlt hple
        · exact hstrict x hx
      · intro x hx
        rcases List.mem_cons.1 hx with rfl | hx
        · exact le_of_lt (lt_of_lt_of_le hlt hple)
        · exact hbound x hx
    · obtain ⟨c, l1, l2, hc, hsplit, hstrict, hbound⟩ := ih b
      have hfold : (p :: rest).foldl maxStep (some b) = some c := by
        simpa [maxStep, hlt] using hc
      cases l1 with
      | nil =>
        rw [List.nil_append] at hsplit
        injection hsplit with h1 h2
        refine ⟨c, [], p :: rest, hfold, ?_, by simp, ?_⟩
        · rw [List.nil_append, h1]
        · intro x hx
          rcases List.mem_cons.1 hx with rfl | hx
          · exact hbound x (List.mem_cons_self _ _)
          · rcases List.mem_cons.1 hx with rfl | hx
            · exact le_trans (le_of_not_lt hlt) (hbound b (List.mem_cons_self _ _))
            · exact hbound x (List.mem_cons_of_mem _ hx)
      | cons q l1x =>
        rw [List.cons_append] at hsplit
        injection hsplit with h1 h2
        have hblt : b.2.length < c.2.length := by
          have hq := hstrict q (List.mem_cons_self _ _)
          rw [← h1] at hq
          exact hq
        refine ⟨c, b :: p :: l1x, l2, hfold, ?_, ?_, ?_⟩
        · rw [List.cons_append, List.cons_append, ← h2]
        · intro x hx
          rcases List.mem_cons.1 hx with rfl | hx
          · exact hblt
          · rcases List.mem_cons.1 hx with rfl | hx
            · exact lt_of_le_of_lt (le_of_not_lt hlt) hblt
            · exact hstrict x (List.mem_cons_of_mem _ hx)
        · intro x hx
          rcases List.mem_cons.1 hx with rfl | hx
          · exact hbound x (List.mem_cons_self _ _)
          · rcases List.mem_cons.1 hx with rfl | hx
            · exact le_trans (le_of_not_lt hlt) (hbound b (List.mem_cons_self _ _))
            · exact hbound x (List.mem_cons_of_mem _ hx)

theorem hammeredTarget_first_max (votes : List (Nat × Nat)) (hne : votes ≠ []) :
    ∃ t pre post, hammeredTarget votes = some t ∧
      tallyKeys votes = pre ++ t :: post ∧
      (∀ u ∈ pre, (votersFor votes u).length < (votersFor votes t).length) ∧
      (∀ u ∈ tallyKeys votes,
        (votersFor votes u).length ≤ (votersFor votes t).length) := by
  have hkey : ∃ k, k ∈ tallyKeys votes := by
    obtain ⟨p, rest, rfl⟩ := List.exists_cons_of_ne_nil hne
    exact ⟨p.2, (mem_tallyKeys _ _).2 ⟨p.1, by simp⟩⟩
  obtain ⟨k, hk⟩ := hkey
  have htne : get_vote_tally votes ≠ [] := by
    intro h
    have hm : (k, votersFor votes k) ∈ get_vote_tally votes :=
      List.mem_map.2 ⟨k, hk, rfl⟩
    rw [h] at hm
    cases hm
  obtain ⟨e, es, hes⟩ := List.exists_cons_of_ne_nil htne
  obtain ⟨c, l1, l2, hc, hsplit, hstrict, hbound⟩ := foldl_maxStep_first es e
  have htallysplit : get_vote_tally votes = l1 ++ c :: l2 := by
    rw [hes, hsplit]
  have hcm : c ∈ get_vote_tally votes := by
    rw [htallysplit]
    exact List.mem_append_right _ (List.mem_cons_self _ _)
  obtain ⟨hc2, hc1⟩ := mem_tally_shape votes c hcm
  refine ⟨c.1, l1.map (fun p => p.1), l2.map (fun p => p.1), ?_, ?_, ?_, ?_⟩
  · unfold hammeredTarget maxByVotes
    rw [hes]
    simp only [List.foldl_cons, maxStep]
    rw [hc]
    rfl
  · rw [← keys_of_tally, htallysplit]
    simp
  · intro u hu
    obtain ⟨x, hx, hxu⟩ := List.mem_map.1 hu
    have hxt : x ∈ get_vote_tally votes := by
      rw [htallysplit]
      exact List.mem_append_left _ hx
    obtain ⟨hx2, _⟩ := mem_tally_shape votes x hxt
    have hxc := hstrict x hx
    rw [← hxu, ← hx2, ← hc2]
    exact hxc
  · intro u hu
    have hum : (u, votersFor votes u) ∈ get_vote_tally votes :=
      List.mem_map.2 ⟨u, hu, rfl⟩
    rw [hes] at hum
    have hub := hbound _ hum
    simpa [← hc2] using hub

theorem dictGet_applyOp (st : GameState) (op : VoteOp) (u : Nat) :
    dictGet (applyOp st op).votes u = voteStep u (dictGet st.votes u) op := by
  cases op with
  | cast v t =>
    simp only [applyOp, cast_vote, voteStep]
    rw [dictGet_dictSet]
  | remove v =>
    simp only [applyOp, remove_vote, voteStep]
    by_cases h : (dictGet st.votes v).isSome
    · simp only [h, if_true]
      rw [dictGet_dictDel]
      by_cases hvu : v = u
      · simp [hvu]
      · have huv : ¬ u = v := fun hh => hvu hh.symm
        simp [hvu, huv]
    · simp only [h, if_false]
      by_cases hvu : v = u
      · rw [← hvu]
        simp only [hvu, if_true]
        rw [Option.not_isSome_iff_eq_none] at h
        rw [hvu] at h
        simp [h]
      · simp [hvu]

theorem keysNodup_applyOp (st : GameState) (op : VoteOp)
    (h : keysNodup st.votes) : keysNodup (applyOp st op).votes := by
  cases op with
  | cast v t => exact keysNodup_dictSet _ _ _ h
  | remove v =>
    simp only [applyOp, remove_vote]
    by_cases hs : (dictGet st.votes v).isSome
    · simp only [hs, if_true]
      exact keysNodup_dictDel _ _ h
    · simpa [hs]

theorem dictGet_foldl_ops (ops : List VoteOp) (st : GameState) (u : Nat) :
    dictGet (ops.foldl applyOp st).votes u =
      ops.foldl (voteStep u) (dictGet st.votes u) := by
  induction ops generalizing st with
  | nil => rfl
  | cons op rest ih =>
    simp only [List.foldl_cons]
    rw [ih (applyOp st op), dictGet_applyOp]

theorem keysNodup_foldl_ops (ops : List VoteOp) (st : GameState)
    (h : keysNodup st.votes) : keysNodup ((ops.foldl applyOp st).votes) := by
  induction ops generalizing st with
  | nil => exact h
  | cons op rest ih => exact ih (applyOp st op) (keysNodup_applyOp st op h)

theorem is_hammer_expired_iff (s : GameState) (m : Int) :
    is_hammer_expired s m = true ↔
      s.hammer_active = true ∧ ∃ e, s.hammer_end_time = some e ∧ e - m ≤ 0 := by
  unfold is_hammer_expired get_time_remaining
  cases hact : s.hammer_active
  · simp
  · cases hend : s.hammer_end_time with
    | none => simp
    | some e =>
      by_cases hc : e - m < 0
      · simp only [Bool.not_true, Bool.false_eq_true, if_false, hc, if_true,
          decide_eq_true_eq, true_and]
        constructor
        · intro _; exact ⟨e, rfl, le_of_lt hc⟩
        · intro _; omega
      · simp only [Bool.not_true, Bool.false_eq_true, if_false, hc,
          decide_eq_true_eq, true_and]
        constructor
        · intro h; exact ⟨e, rfl, h⟩
        · rintro ⟨e', he', hle⟩
          injection he' with he'
          omega

/-- Claim C3: `eliminate_player` adds the player to the elimination set,
keeps exactly the votes in which the player appears neither as voter nor as
target, and is idempotent: a second call changes nothing. -/
theorem eliminate_player_spec (st : GameState) (p : Nat) :
    p ∈ (eliminate_player st p).eliminated_players ∧
    (∀ v t : Nat, ((v, t) ∈ (eliminate_player st p).votes ↔
      ((v, t) ∈ st.votes ∧ v ≠ p ∧ t ≠ p))) ∧
    eliminate_player (eliminate_player st p) p = eliminate_player st p := by
  refine ⟨mem_setInsert_self _ _, ?_, ?_⟩
  · intro v t
    simp [eliminate_player, List.mem_filter]
  · obtain ⟨vs, ha, he, gc, lu, el, ga⟩ := st
    simp only [eliminate_player, setInsert_idem, GameState.mk.injEq, and_true,
      true_and]
    exact List.filter_eq_self.2 (fun a ha => (List.mem_filter.1 ha).2)

/-- Claim C4: starting from the empty game state, after any sequence of
cast_vote and remove_vote operations the vote map has at most one entry per
voter (its keys are pairwise distinct), and the entry recorded for each voter
is exactly the target of the latest cast for that voter not followed by a
removal for that voter. -/
theorem vote_map_sequence_invariant (ops : List VoteOp) (u : Nat) :
    keysNodup (applyOps ops).votes ∧
    dictGet (applyOps ops).votes u = latestVote ops u := by
  constructor
  · exact keysNodup_foldl_ops ops freshGameState
      (by simp [keysNodup, freshGameState])
  · unfold applyOps latestVote
    rw [dictGet_foldl_ops]
    rfl

/-- Claim C5: the majority threshold is `n / 2 + 1` (so 1 for zero active
players), and `check_majority` returns none exactly when no target's vote
count reaches the threshold, and otherwise some target whose count does. -/
theorem majority_threshold_check_spec (votes : List (Nat × Nat)) (n t : Nat) :
    get_majority_threshold n = n / 2 + 1 ∧
    get_majority_threshold 0 = 1 ∧
    (check_majority votes n = none ↔
      ∀ u : Nat, (votersFor votes u).length < get_majority_threshold n) ∧
    (check_majority votes n = some t →
      get_majority_threshold n ≤ (votersFor votes t).length) := by
  refine ⟨rfl, rfl, ?_, ?_⟩
  · unfold check_majority
    rw [Option.map_eq_none', List.find?_eq_none]
    constructor
    · intro h u
      by_cases hu : u ∈ tallyKeys votes
      · have hh := h (u, votersFor votes u) (List.mem_map.2 ⟨u, hu, rfl⟩)
        have : ¬ get_majority_threshold n ≤ (votersFor votes u).length := by
          simpa using hh
        exact Nat.lt_of_not_le this
      · rw [votersFor_eq_nil votes u hu]
        simp [get_majority_threshold]
    · intro h e he
      obtain ⟨he2, _⟩ := mem_tally_shape votes e he
      simp only [he2, decide_eq_true_eq]
      exact Nat.not_le.2 (h e.1)
  · intro hsome
    unfold check_majority at hsome
    obtain ⟨e, hfind, hfst⟩ := Option.map_eq_some'.1 hsome
    have hp := List.find?_some hfind
    have hmem := List.mem_of_find?_eq_some hfind
    obtain ⟨he2, _⟩ := mem_tally_shape votes e hmem
    rw [← hfst, ← he2]
    simpa using hp

/-- Claim C6: with positive duration, the hammer is not expired immediately
after starting, is expired at every time at or after the end, and in general
the timer reads expired exactly when it is active and the clamped remaining
time `max (end - now) 0` is zero. -/
theorem hammer_expiry_spec (st : GameState) (channel : Nat)
    (now duration t : Int) (hd : 0 < duration) (ht : now + duration ≤ t) :
    is_hammer_expired (start_hammer st channel now duration) now = false ∧
    is_hammer_expired (start_hammer st channel now duration) t = true ∧
    (∀ s : GameState, ∀ m : Int,
      (is_hammer_expired s m = true ↔
        s.hammer_active = true ∧
        ∃ e, s.hammer_end_time = some e ∧ max (e - m) 0 = 0)) := by
  refine ⟨?_, ?_, ?_⟩
  · rw [Bool.eq_false_iff]
    intro hexp
    rw [is_hammer_expired_iff] at hexp
    obtain ⟨_, e, he, hle⟩ := hexp
    simp only [start_hammer, Option.some.injEq] at he
    omega
  · rw [is_hammer_expired_iff]
    exact ⟨rfl, now + duration, rfl, by omega⟩
  · intro s m
    rw [is_hammer_expired_iff]
    simp only [max_eq_right_iff]

/-- Claim C7: `resetvotes` empties the vote map, deactivates the hammer and
clears its end and last-update timestamps, and leaves the elimination set and
the game-active flag untouched. -/
theorem resetvotes_spec (st : GameState) :
    (resetvotes st).votes = [] ∧
    (resetvotes st).hammer_active = false ∧
    (resetvotes st).hammer_end_time = none ∧
    (resetvotes st).last_update_time = none ∧
    (resetvotes st).eliminated_players = st.eliminated_players ∧
    (resetvotes st).game_active = st.game_active :=
  ⟨rfl, rfl, rfl, rfl, rfl, rfl⟩

/-- Claim C8: with fewer than 3 role-holding players, activation reports
InsufficientPlayers and returns the state unchanged; with 3 or more it
succeeds, installing a fresh state with no votes or eliminations, the active
flag set and the invoking channel recorded. -/
theorem startgame_spec (st : GameState) (players : List Nat) (channel : Nat) :
    (players.length < 3 →
      startgame st players channel = (st, some StartError.insufficientPlayers)) ∧
    (3 ≤ players.length →
      (startgame st players channel).2 = none ∧
      (startgame st players channel).1.votes = [] ∧
      (startgame st players channel).1.eliminated_players = [] ∧
      (startgame st players channel).1.game_active = true ∧
      (startgame st players channel).1.game_channel = some channel) := by
  constructor
  · intro h
    simp [startgame, h]
  · intro h
    have h3 : ¬ players.length < 3 := Nat.not_lt.2 h
    simp [startgame, h3, freshGameState]

/-- Claim C10: `cast_vote` accepts every voter/target pair, including
self-votes and identifiers of eliminated players, always stores the vote and
always returns True. -/
theorem cast_vote_total (st : GameState) (voterId targetId : Nat) :
    (cast_vote st voterId targetId).2 = true ∧
    dictGet (cast_vote st voterId targetId).1.votes voterId = some targetId := by
  refine ⟨rfl, ?_⟩
  show dictGet (dictSet st.votes voterId targetId) voterId = some targetId
  rw [dictGet_dictSet]
  simp

/-- Claim C1 counterexample: with votes 1→10, 2→20, 3→20 and one active
player (threshold 1), both targets qualify; the spec's deterministic order
(count descending, id ascending) lists 20 first, but check_majority returns
10, the first target in the tally's insertion order. -/
theorem check_majority_order_cex :
    check_majority [(1, 10), (2, 20), (3, 20)] 1 = some 10 ∧
    check_majority_spec [(1, 10), (2, 20), (3, 20)] 1 = some 20 ∧
    check_majority [(1, 10), (2, 20), (3, 20)] 1 ≠
      check_majority_spec [(1, 10), (2, 20), (3, 20)] 1 := by
  decide

/-- Claim C1 (amended): whenever some target's vote count meets the majority
threshold, check_majority returns the first qualifying target in the tally's
enumeration order, which is the order of first appearance of each target in
the vote map (the dict insertion order) — not the spec's count-descending,
id-ascending order; with several simultaneous qualifiers the result is thus
determined by insertion order. -/
theorem check_majority_first_qualifying (votes : List (Nat × Nat)) (n t0 : Nat)
    (h0 : t0 ∈ tallyKeys votes)
    (hq0 : get_majority_threshold n ≤ (votersFor votes t0).length) :
    ∃ t pre post, check_majority votes n = some t ∧
      get_majority_threshold n ≤ (votersFor votes t).length ∧
      tallyKeys votes = pre ++ t :: post ∧
      ∀ u ∈ pre, (votersFor votes u).length < get_majority_threshold n := by
  have hmem : (t0, votersFor votes t0) ∈ get_vote_tally votes :=
    List.mem_map.2 ⟨t0, h0, rfl⟩
  obtain ⟨e, hfind⟩ :=
    find?_isSome_of_mem
      (fun p => decide (get_majority_threshold n ≤ p.2.length))
      (get_vote_tally votes) (t0, votersFor votes t0) hmem
      (by simpa using hq0)
  obtain ⟨l1, l2, hsplit, hpe, hl1⟩ := find?_split _ _ _ hfind
  have hemem : e ∈ get_vote_tally votes := by
    rw [hsplit]
    exact List.mem_append_right _ (List.mem_cons_self _ _)
  obtain ⟨he2, he1⟩ := mem_tally_shape votes e hemem
  refine ⟨e.1, l1.map (fun p => p.1), l2.map (fun p => p.1), ?_, ?_, ?_, ?_⟩
  · unfold check_majority
    rw [hfind]
    rfl
  · rw [← he2]
    simpa using hpe
  · rw [← keys_of_tally, hsplit]
    simp
  · intro u hu
    obtain ⟨x, hx, hxu⟩ := List.mem_map.1 hu
    have hxt : x ∈ get_vote_tally votes := by
      rw [hsplit]
      exact List.mem_append_left _ hx
    obtain ⟨hx2, _⟩ := mem_tally_shape votes x hxt
    have hnle : ¬ get_majority_threshold n ≤ x.2.length := by
      simpa using hl1 x hx
    rw [← hxu, ← hx2]
    exact Nat.lt_of_not_le hnle

/-- Claim C1 witness: a concrete qualifying input for the amended theorem. -/
theorem check_majority_first_qualifying_witness :
    (20 ∈ tallyKeys [(1, 10), (2, 20), (3, 20)] ∧
      get_majority_threshold 1 ≤
        (votersFor [(1, 10), (2, 20), (3, 20)] 20).length) ∧
    (∃ t pre post, check_majority [(1, 10), (2, 20), (3, 20)] 1 = some t ∧
      get_majority_threshold 1 ≤
        (votersFor [(1, 10), (2, 20), (3, 20)] t).length ∧
      tallyKeys [(1, 10), (2, 20), (3, 20)] = pre ++ t :: post ∧
      ∀ u ∈ pre, (votersFor [(1, 10), (2, 20), (3, 20)] u).length <
        get_majority_threshold 1) :=
  ⟨⟨by decide, by decide⟩,
    check_majority_first_qualifying [(1, 10), (2, 20), (3, 20)] 1 20
      (by decide) (by decide)⟩

/-- Claim C2 counterexample: in the expired game `exhSt` both targets 20 and
10 hold one vote; the spec's tie-break (count descending, id ascending) picks
10, but the tick eliminates 20, the first-appearing tally key. -/
theorem tick_tiebreak_cex :
    is_hammer_expired exhSt 100 = true ∧
    (check_hammer_tick exhSt 100).2 = [HEvent.hammerResolved (some 20)] ∧
    (check_hammer_tick exhSt 100).1.eliminated_players = [20] ∧
    hammeredTarget_spec exhSt.votes = some 10 ∧ (20 : Nat) ≠ 10 := by
  decide

/-- Claim C2 (amended): at an expired tick the timer is set inactive; with an
empty vote map nobody is eliminated and the resolution event carries no
player; with a non-empty vote map the tick eliminates exactly the first
target in the tally enumeration (vote-map insertion) order that attains the
maximal vote count: the tally keys decompose as pre, target, post with every
key in pre holding strictly fewer votes than the target and no key at all
holding more — so ties are broken by first appearance in enumeration order,
not by target identifier ascending. -/
theorem tick_expired_resolution (st : GameState) (now : Int)
    (hact : st.hammer_active = true) (hch : st.game_channel.isSome = true)
    (hexp : is_hammer_expired st now = true) :
    (check_hammer_tick st now).1.hammer_active = false ∧
    (st.votes = [] →
      (check_hammer_tick st now).1.eliminated_players = st.eliminated_players ∧
      (check_hammer_tick st now).2 = [HEvent.hammerResolved none]) ∧
    (st.votes ≠ [] → ∃ t pre post,
      (check_hammer_tick st now).2 = [HEvent.hammerResolved (some t)] ∧
      t ∈ (check_hammer_tick st now).1.eliminated_players ∧
      tallyKeys st.votes = pre ++ t :: post ∧
      (∀ u ∈ pre,
        (votersFor st.votes u).length < (votersFor st.votes t).length) ∧
      (∀ u ∈ tallyKeys st.votes,
        (votersFor st.votes u).length ≤ (votersFor st.votes t).length)) := by
  obtain ⟨r, hrem⟩ : ∃ r, get_time_remaining st now = some r := by
    unfold is_hammer_expired at hexp
    cases hrem : get_time_remaining st now with
    | none => rw [hrem] at hexp; simp at hexp
    | some r => exact ⟨r, rfl⟩
  have hguard : (!st.hammer_active || st.game_channel.isNone) = false := by
    rw [hact]
    cases hgc : st.game_channel
    · rw [hgc] at hch; simp at hch
    · simp
  refine ⟨?_, ?_, ?_⟩
  · cases hht : hammeredTarget st.votes with
    | none => simp [check_hammer_tick, hguard, hrem, hexp, hht]
    | some t2 =>
      simp [check_hammer_tick, hguard, hrem, hexp, hht, eliminate_player]
  · intro hv
    have hht : hammeredTarget st.votes = none := by rw [hv]; rfl
    simp [check_hammer_tick, hguard, hrem, hexp, hht]
  · intro hv
    obtain ⟨t2, pre, post, hht, hsplit, hstrict, hmax⟩ :=
      hammeredTarget_first_max st.votes hv
    refine ⟨t2, pre, post, ?_, ?_, hsplit, hstrict, hmax⟩
    · simp [check_hammer_tick, hguard, hrem, hexp, hht]
    · simp only [check_hammer_tick, hguard, Bool.false_eq_true, if_false,
        hrem, hexp, if_true, hht]
      simp [eliminate_player, mem_setInsert_self]

/-- Claim C2 witness: the amended theorem applied to the concrete expired
game `exhSt`. -/
theorem tick_expired_resolution_witness :
    exhSt.hammer_active = true ∧ exhSt.game_channel.isSome = true ∧
    is_hammer_expired exhSt 100 = true ∧
    (check_hammer_tick exhSt 100).1.hammer_active = false :=
  ⟨rfl, rfl, by decide, (tick_expired_resolution exhSt 100 rfl rfl (by decide)).1⟩

/-- Claim C9: at a tick where the timer is expired, the game is resolved (the
timer goes inactive and a single resolution event is emitted) and no progress
update is emitted in that same tick, regardless of the time since the last
update. -/
theorem tick_expiry_precedes_update (st : GameState) (now : Int)
    (hact : st.hammer_active = true) (hch : st.game_channel.isSome = true)
    (hexp : is_hammer_expired st now = true) :
    (check_hammer_tick st now).1.hammer_active = false ∧
    (∃ p, (check_hammer_tick st now).2 = [HEvent.hammerResolved p]) ∧
    (∀ q : Int, HEvent.hammerProgress q ∉ (check_hammer_tick st now).2) := by
  obtain ⟨r, hrem⟩ : ∃ r, get_time_remaining st now = some r := by
    unfold is_hammer_expired at hexp
    cases hrem : get_time_remaining st now with
    | none => rw [hrem] at hexp; simp at hexp
    | some r => exact ⟨r, rfl⟩
  have hguard : (!st.hammer_active || st.game_channel.isNone) = false := by
    rw [hact]
    cases hgc : st.game_channel
    · rw [hgc] at hch; simp at hch
    · simp
  cases hht : hammeredTarget st.votes with
  | none =>
    refine ⟨?_, ⟨none, ?_⟩, ?_⟩ <;>
      simp [check_hammer_tick, hguard, hrem, hexp, hht]
  | some t2 =>
    refine ⟨?_, ⟨some t2, ?_⟩, ?_⟩ <;>
      simp [check_hammer_tick, hguard, hrem, hexp, hht, eliminate_player]

/-- Claim C9 witness: the concrete game `exhSt` at time 20000, where the
4-hour update interval (14400 s) since the last update has also elapsed, so
only the expiry ordering prevents a progress event. -/
theorem tick_expiry_precedes_update_witness :
    is_hammer_expired exhSt 20000 = true ∧
    updateInterval ≤ 20000 - 0 ∧
    (∀ q : Int, HEvent.hammerProgress q ∉ (check_hammer_tick exhSt 20000).2) :=
  ⟨by decide, by decide,
    (tick_expiry_precedes_update exhSt 20000 rfl rfl (by decide)).2.2⟩

/-- Claim C5 witness: a single vote 1→10 with one active player (threshold 1)
— check_majority returns 10 and its count meets the threshold. -/
theorem majority_threshold_check_spec_witness :
    check_majority [(1, 10)] 1 = some 10 ∧
    get_majority_threshold 1 ≤ (votersFor [(1, 10)] 10).length :=
  ⟨by decide, (majority_threshold_check_spec [(1, 10)] 1 10).2.2.2 (by decide)⟩

/-- Claim C6 witness: a hammer started at time 0 with duration 10 is not
expired at 0 and is expired at 10. -/
theorem hammer_expiry_spec_witness :
    (0 : Int) < 10 ∧ (0 : Int) + 10 ≤ 10 ∧
    is_hammer_expired (start_hammer freshGameState 5 0 10) 0 = false ∧
    is_hammer_expired (start_hammer freshGameState 5 0 10) 10 = true :=
  ⟨by decide, by decide,
    (hammer_expiry_spec freshGameState 5 0 10 10 (by decide) (by decide)).1,
    (hammer_expiry_spec freshGameState 5 0 10 10 (by decide) (by decide)).2.1⟩

/-- Claim C8 witness: activation with 2 players fails and leaves the state
unchanged; with 3 players it succeeds and sets the active flag. -/
theorem startgame_spec_witness :
    ([1, 2].length < 3 ∧
      startgame freshGameState [1, 2] 9 =
        (freshGameState, some StartError.insufficientPlayers)) ∧
    (3 ≤ [1, 2, 3].length ∧
      (startgame freshGameState [1, 2, 3] 9).1.game_active = true) :=
  ⟨⟨by decide, (startgame_spec freshGameState [1, 2] 9).1 (by decide)⟩,
    ⟨by decide,
      ((startgame_spec freshGameState [1, 2, 3] 9).2 (by decide)).2.2.2.1⟩⟩
